import Mathlib

/-!
Shallow embedding of the edgebit-agent's attribution pipeline, SBOM registry,
path model, cgroup-id extraction, machine-id validation and heartbeat jitter,
with theorems settling the specification claims about them.

Conventions of the embedding:
* Rust `HashMap` values are association lists; `hmGet`/`hmInsert` mirror
  `HashMap::get`/`HashMap::insert` (first-match lookup, in-place replacement).
* Filesystem-dependent steps (`realpath`, `is_file`, the includes/excludes
  check inside `resolve`) are abstracted: the workload `file_opened` functions
  below embed the body of the `Ok(Some(filepath))` branch, i.e. they take the
  already-resolved canonical workload path as input.
* Rust `Path` values are lists of components (`PComp`), with the root slash an
  explicit `rootDir` component, matching `std::path::Component` iteration.
* Machine integers that matter are `Nat`/`Int`; `std::time::Duration` is a
  count of whole seconds (`Nat`), with `none` standing for the panic on
  `Duration` underflow.
-/

/- ### SBOM registry (src/src/agent/registry.rs) -/

/-- `PkgRef` from registry.rs: one package id with the canonical paths
attributed to it. -/
structure PkgRef where
  id : String
  filenames : List String
deriving DecidableEq, Repr

/-- `Registry.inner: HashMap<String, Vec<String>>` — filename to a list of
package ids, as an association list. -/
abbrev Registry := List (String × List String)

/-- `HashMap::get`: first binding of the key, if any. -/
def hmGet {α β : Type} [DecidableEq α] (m : List (α × β)) (k : α) : Option β :=
  match m with
  | [] => none
  | (k', v) :: rest => if k' = k then some v else hmGet rest k

/-- `HashMap::insert`: replace the binding of the key, or append a new one. -/
def hmInsert {α β : Type} [DecidableEq α] (m : List (α × β)) (k : α) (v : β) :
    List (α × β) :=
  match m with
  | [] => [(k, v)]
  | (k', v') :: rest => if k' = k then (k', v) :: rest else (k', v') :: hmInsert rest k v

/-- `result.get_mut(id) => pkg.filenames.push(f)` in `Registry::get_packages`:
append `f` to the filenames of the binding of `k`. -/
def resPush (m : List (String × PkgRef)) (k : String) (f : String) :
    List (String × PkgRef) :=
  match m with
  | [] => []
  | (k', p) :: rest =>
    if k' = k then (k', { p with filenames := p.filenames ++ [f] }) :: rest
    else (k', p) :: resPush rest k f

/-- The body of the `for id in pkg_ids` loop in `Registry::get_packages`:
push the filename onto an existing `PkgRef` or insert a fresh one. -/
def resUpd (f : String) (m : List (String × PkgRef)) (id : String) :
    List (String × PkgRef) :=
  match hmGet m id with
  | some _ => resPush m id f
  | none => hmInsert m id { id := id, filenames := [f] }

/-- The body of the `for f in filenames` loop in `Registry::get_packages`:
matched files feed the per-id loop; an unmatched file overwrites the
empty-id binding (`result.insert(String::new(), …)`). -/
def getPackagesStep (inner : Registry) (m : List (String × PkgRef)) (f : String) :
    List (String × PkgRef) :=
  match hmGet inner f with
  | some pkgIds => pkgIds.foldl (resUpd f) m
  | none => hmInsert m "" { id := "", filenames := [f] }

/-- `Registry::get_packages`: fold the files through the result map and
collect the values (`result.into_values().collect()`). -/
def getPackages (inner : Registry) (filenames : List String) : List PkgRef :=
  (filenames.foldl (getPackagesStep inner) []).map Prod.snd

/-- `file-path → package ids` membership: the registry registers `f` to `id`. -/
def registeredTo (inner : Registry) (f id : String) : Bool :=
  match hmGet inner f with
  | some ids => ids.contains id
  | none => false

/-- Some input filename is registered to `id`. -/
def matchesAny (inner : Registry) (id : String) (fs : List String) : Bool :=
  fs.any (fun f => registeredTo inner f id)

/-- Well-formedness of the `get_packages` result map: each value's `id` field
equals its key, and keys are unique (as in a `HashMap`). -/
def KeysOk (m : List (String × PkgRef)) : Prop :=
  (∀ e ∈ m, e.2.id = e.1) ∧ (m.map Prod.fst).Nodup

/-- Growth of the binding of `id` between result-map states: an existing
`PkgRef` survives with at least its filenames. -/
def MonoAt (id : String) (m m' : List (String × PkgRef)) : Prop :=
  ∀ p, hmGet m id = some p →
    ∃ p', hmGet m' id = some p' ∧ p.filenames ⊆ p'.filenames

/-- Invariant of the `get_packages` fold for a package id, after the files
`pr` have been processed: the binding of `id` exists exactly when some
processed file is registered to `id`, and it then holds every processed file
registered to `id`. -/
def TrackOk (inner : Registry) (id : String) (pr : List String)
    (m : List (String × PkgRef)) : Prop :=
  ((hmGet m id).isSome = matchesAny inner id pr) ∧
  (∀ p, hmGet m id = some p →
    ∀ f ∈ pr, registeredTo inner f id = true → f ∈ p.filenames)

/- ### Recent-reported LRU and workloads
(src/src/agent/workloads/host.rs, src/src/agent/workloads/containers.rs) -/

/-- `REPORTED_LRU_SIZE` from workloads: capacity of the recent-reported LRU. -/
def REPORTED_LRU_SIZE : Nat := 256

/-- `lru::LruCache::put(k, ())` on a most-recent-first key list: promote an
existing key (returning `true`, i.e. `is_some()` on the old value) or insert
at the front, evicting the least-recent key at capacity (returning `false`). -/
def lruPut (cache : List String) (cap : Nat) (k : String) : List String × Bool :=
  if k ∈ cache then (k :: cache.erase k, true)
  else (k :: (if cache.length = cap then cache.dropLast else cache), false)

/-- The `HostWorkload` state touched by `file_opened`/`flush_in_use`:
`id`, the SBOM registry `pkgs`, the `reported` LRU and the pending batch. -/
structure HostWorkload where
  id : String
  pkgs : Registry
  reported : List String
  in_use_batch : List PkgRef

/-- `HostWorkload::file_opened`, body of the `Ok(Some(filepath))` branch of
`resolve`: consult-and-update the reported LRU; if the path was not yet
reported, look it up in the SBOM registry and append the non-empty result to
the pending batch. -/
def HostWorkload.file_opened (s : HostWorkload) (filepath : String) : HostWorkload :=
  let put := lruPut s.reported REPORTED_LRU_SIZE filepath
  if put.2 then { s with reported := put.1 }
  else
    let pkgs := getPackages s.pkgs [filepath]
    if pkgs.isEmpty then { s with reported := put.1 }
    else { s with reported := put.1, in_use_batch := s.in_use_batch ++ pkgs }

/-- `HostWorkload::flush_in_use`: hand out `(id, batch)` and reset the batch
(`split_off(0)`). -/
def HostWorkload.flush_in_use (s : HostWorkload) : (String × List PkgRef) × HostWorkload :=
  ((s.id, s.in_use_batch), { s with in_use_batch := [] })

/-- `HostWorkload::new` (host.rs), the fields of the state above: the id from
`load_baseos_id` is a parameter (file IO); the package registry is
`Registry::new()` — EMPTY, nothing ever registers the startup SBOM into it —
the reported LRU is `LruCache::new(REPORTED_LRU_SIZE)` (empty) and the
pending batch `Vec::new()`. -/
def HostWorkload.new (id : String) : HostWorkload :=
  { id := id, pkgs := [], reported := [], in_use_batch := [] }

/-- The `ContainerWorkload` state touched by `file_opened`: the `reported`
LRU and the pending batch. -/
structure ContainerWorkload where
  reported : List String
  in_use_batch : List PkgRef

/-- `ContainerWorkload::file_opened`, body of the `Ok(Some(filepath))` branch
of `resolve`: consult-and-update the reported LRU; if the path was not yet
reported, push a `PkgRef` with an empty package id. -/
def ContainerWorkload.file_opened (s : ContainerWorkload) (filepath : String) :
    ContainerWorkload :=
  let put := lruPut s.reported REPORTED_LRU_SIZE filepath
  if put.2 then { s with reported := put.1 }
  else
    { s with
      reported := put.1,
      in_use_batch := s.in_use_batch ++ [{ id := "", filenames := [filepath] }] }

/- ### machine-id validation (src/src/agent/main.rs, read_machine_id) -/

/-- `char::is_whitespace` (the Unicode White_Space code points), used by
`str::trim`. -/
def isRustWhitespace (c : Char) : Bool :=
  c = ' ' || c = '\t' || c = '\n' || c = '\x0b' || c = '\x0c' || c = '\r' ||
  c = '\u0085' || c = ' ' || c = ' ' ||
  (' ' ≤ c && c ≤ ' ') ||
  c = ' ' || c = ' ' || c = ' ' || c = ' ' || c = '　'

/-- `str::trim`: strip leading and trailing whitespace. -/
def rustTrim (s : List Char) : List Char :=
  ((s.dropWhile isRustWhitespace).reverse.dropWhile isRustWhitespace).reverse

/-- `str::len`: the UTF-8 byte length. -/
def utf8Len (s : List Char) : Nat :=
  (s.map Char.utf8Size).sum

/-- The rejected all-zeros machine id. -/
def MACHINE_ID_ZEROS : List Char := List.replicate 32 '0'

/-- `read_machine_id` from main.rs, on the file content (`none` = read
error): trim, then reject when the trimmed id is not 32 bytes long or is the
all-zeros string. -/
def read_machine_id (content : Option (List Char)) : Except String (List Char) :=
  match content with
  | none => Except.error "failed to read MachineID"
  | some s =>
    let id := rustTrim s
    if utf8Len id ≠ 32 then Except.error "MachineID is not 32 chars long"
    else if id = MACHINE_ID_ZEROS then Except.error "MachineID is not valid -- all zeros"
    else Except.ok id

/- ### Heartbeat jitter (src/src/agent/jitter.rs, src/src/agent/main.rs) -/

/-- `HEARTBEAT_INTERVAL` (main.rs): 300 seconds. -/
def HEARTBEAT_INTERVAL : Nat := 300

/-- `HEARTBEAT_JITTER` (main.rs): 30 seconds. -/
def HEARTBEAT_JITTER : Nat := 30

/-- The values `Uniform::from(-mag..mag)` can sample (half-open range). -/
def jitterSample (mag : Nat) (j : Int) : Prop :=
  -(mag : Int) ≤ j ∧ j < (mag : Int)

/-- `JitteredDuration::add`: add the sampled jitter to the base duration in
whole seconds; `none` is the panic of `Duration` subtraction underflow. -/
def jitter_add (j : Int) (base : Nat) : Option Nat :=
  if j < 0 then
    if (-j).toNat ≤ base then some (base - (-j).toNat) else none
  else some (base + j.toNat)

/- ### Container-id extraction (src/src/agent/containers/mod.rs)

`CGROUP_NAME_RE = Regex::new(r".*([[:xdigit:]]{64})")` and
`Containers::id_from_cgroup`. The regex engine is modelled directly:
`captures` finds the leftmost-starting match; within it the greedy `.*`
(which does not cross a newline) is as long as possible, so the capture
group is the last 64-hex-digit window reachable from the match start. -/

/-- `[[:xdigit:]]`: an ASCII hexadecimal digit. -/
def isXdigit (c : Char) : Bool :=
  c.isDigit || ('a' ≤ c && c ≤ 'f') || ('A' ≤ c && c ≤ 'F')

/-- The 64 characters starting at index `i` exist and are all hex digits. -/
def hexRun64At (cs : List Char) (i : Nat) : Bool :=
  decide (i + 64 ≤ cs.length) && ((cs.drop i).take 64).all isXdigit

/-- `.{k}` starting at `s`: `k` characters none of which is a newline. -/
def dotStarOk (cs : List Char) (s k : Nat) : Bool :=
  ((cs.drop s).take k).all (fun c => decide (c ≠ '\n'))

/-- Greedy length of `.*` for a match starting at `s`: the largest `k` (tried
from the given bound downward) such that `.{k}` is newline-free and a
64-hex-digit run follows. -/
def tryK (cs : List Char) (s : Nat) : Nat → Option Nat
  | 0 => if dotStarOk cs s 0 && hexRun64At cs s then some 0 else none
  | k + 1 =>
    if dotStarOk cs s (k + 1) && hexRun64At cs (s + (k + 1)) then some (k + 1)
    else tryK cs s k

/-- The capture of a match starting at index `s`, if any. -/
def captureAt (cs : List Char) (s : Nat) : Option (List Char) :=
  if s + 64 ≤ cs.length then
    (tryK cs s (cs.length - s - 64)).map (fun k => (cs.drop (s + k)).take 64)
  else none

/-- Leftmost match: try start positions in increasing order (fuel-bounded). -/
def findCaptureFrom (cs : List Char) : Nat → Nat → Option (List Char)
  | _, 0 => none
  | s, fuel + 1 =>
    match captureAt cs s with
    | some r => some r
    | none => findCaptureFrom cs (s + 1) fuel

/-- `CGROUP_NAME_RE.captures(cgroup)` followed by `groups.get(1)`: the
64-hex-digit capture, if the regex matches. -/
def capture64 (cs : List Char) : Option (List Char) :=
  findCaptureFrom cs 0 (cs.length + 1)

/-- `Containers::id_from_cgroup`: the regex capture, returned only when the
container map currently holds it as a key. -/
def id_from_cgroup (contMapKeys : List (List Char)) (cgroup : List Char) :
    Option (List Char) :=
  match capture64 cgroup with
  | none => none
  | some id => if contMapKeys.contains id then some id else none

/- ### Open-event attribution dispatch
(src/src/agent/workloads/in_use.rs `track_pkgs_in_use` drain loop, composed
with src/src/agent/workloads/containers.rs `ContainerWorkloads::file_opened`) -/

/-- Where a drained open event is delivered. -/
inductive Delivery where
  | toContainer : List Char → Delivery
  | droppedMissingWorkload : Delivery
  | toHost : Delivery
deriving DecidableEq, Repr

/-- The per-event dispatch of the drain loop: substitute `""` for a missing
cgroup name (`unwrap_or`), look the cgroup up via `id_from_cgroup`; a matched
id goes to `ContainerWorkloads::file_opened`, which forwards to the workload
when the map holds the id and drops the event with an error log otherwise; an
unmatched cgroup goes to `HostWorkload::file_opened`. -/
def track_dispatch (contMapKeys : List (List Char)) (workloadIds : List (List Char))
    (cgroupName : Option (List Char)) : Delivery :=
  let cgroup := cgroupName.getD []
  match id_from_cgroup contMapKeys cgroup with
  | some id =>
    if workloadIds.contains id then Delivery.toContainer id
    else Delivery.droppedMissingWorkload
  | none => Delivery.toHost

/- ### Path model (src/src/agent/scoped_path.rs) and PathSet
(src/src/agent/workloads/mod.rs) -/

/-- A `std::path::Component`: the root slash or a normal component. -/
inductive PComp where
  | rootDir : PComp
  | normal : String → PComp
deriving DecidableEq, Repr

/-- A `PathBuf` as its component list. -/
abbrev RPath := List PComp

/-- `Path::is_absolute` (Unix: has a root). -/
def isAbsolute (p : RPath) : Bool :=
  p.head? = some PComp.rootDir

/-- `PathBuf::join`: an absolute argument replaces the receiver, a relative
one is appended. -/
def pathJoin (base sfx : RPath) : RPath :=
  if isAbsolute sfx then sfx else base ++ sfx

/-- `join` from scoped_path.rs: strip the leading slash of an absolute
suffix (`strip_prefix("/")`), then `PathBuf::join`. -/
def scopedJoin (base sfx : RPath) : RPath :=
  if isAbsolute sfx then pathJoin base (sfx.drop 1) else pathJoin base sfx

/-- `WorkloadPath::to_rootfs`: join the workload path onto the rootfs. -/
def to_rootfs (p pre : RPath) : RPath :=
  scopedJoin pre p

/-- `Path::strip_prefix`: peel a component-wise prefix. -/
def pathStrip (p pre : RPath) : Option RPath :=
  if pre <+: p then some (p.drop pre.length) else none

/-- `WorkloadPath::from_rootfs`: strip the rootfs and re-root at `/`
(`PathBuf::from("/").join(stripped)`). -/
def from_rootfs (pre p : RPath) : Option RPath :=
  (pathStrip p pre).map (fun stripped => pathJoin [PComp.rootDir] stripped)

/-- `PathSet.add`: `HashMap<WorkloadPath, ()>::insert`, keyed insertion. -/
def pathset_add (members : List RPath) (p : RPath) : List RPath :=
  if p ∈ members then members else members ++ [p]

/-- `PathSet.contains`: `members.keys().any(|f| path.as_raw().starts_with(f))`;
`Path::starts_with` is component-wise prefix (equality included). -/
def pathset_contains (members : List RPath) (q : RPath) : Bool :=
  members.any (fun f => f.isPrefixOf q)

/- ### Theorems -/

/-- Claim C9: every jitter value the heartbeat scheduler can sample with
magnitude `HEARTBEAT_JITTER` (the half-open uniform range −30 ≤ j < 30),
added to `HEARTBEAT_INTERVAL` by `JitteredDuration::add`, neither underflows
`Duration` (no panic) nor leaves the interval [270 s, 330 s]. -/
theorem c9_heartbeat_jitter_bounds (j : Int) (h : jitterSample HEARTBEAT_JITTER j) :
    ∃ d : Nat, jitter_add j HEARTBEAT_INTERVAL = some d ∧ 270 ≤ d ∧ d ≤ 330 := by
  obtain ⟨h1, h2⟩ := h
  simp only [HEARTBEAT_JITTER, Nat.cast_ofNat] at h1 h2
  unfold jitter_add HEARTBEAT_INTERVAL
  split
  · rw [if_pos (by omega)]
    exact ⟨_, rfl, by omega, by omega⟩
  · exact ⟨_, rfl, by omega, by omega⟩

/-- Witness for C9 at the extreme sample j = −30: the result is 270 s. -/
theorem c9_heartbeat_jitter_bounds_witness :
    ∃ d : Nat, jitter_add (-30) HEARTBEAT_INTERVAL = some d ∧ 270 ≤ d ∧ d ≤ 330 :=
  c9_heartbeat_jitter_bounds (-30) (by constructor <;> decide)

/-- Claim C10: an open event with no cgroup name gets the empty string
substituted; the 64-hex-digit pattern cannot match it, so the event is always
routed to the host workload, whatever containers are tracked. -/
theorem c10_missing_cgroup_routes_to_host (contMapKeys workloadIds : List (List Char)) :
    track_dispatch contMapKeys workloadIds none = Delivery.toHost := rfl

/-- Counterexample to claim C3: a 32-character non-hexadecimal machine id
(32 times 'z') is accepted by `read_machine_id`, though the claim requires an
error for non-hex content. -/
theorem c3_machine_id_hex_cex :
    read_machine_id (some (List.replicate 32 'z')) = Except.ok (List.replicate 32 'z') ∧
    isXdigit 'z' = false := by
  constructor
  · rfl
  · rfl

/-- Claim C3 as amended: `read_machine_id` returns `Ok` with the trimmed file
content if and only if that trimmed content is exactly 32 bytes long and is
not the all-zeros string — the characters are NOT required to be hexadecimal;
any other content (and a read failure) yields an error. -/
theorem c3_machine_id_validation (s t : List Char) :
    (read_machine_id (some s) = Except.ok t ↔
      (t = rustTrim s ∧ utf8Len (rustTrim s) = 32 ∧ rustTrim s ≠ MACHINE_ID_ZEROS)) ∧
    read_machine_id none ≠ Except.ok t := by
  refine ⟨?_, by simp [read_machine_id]⟩
  simp only [read_machine_id]
  split
  · next h =>
    constructor
    · intro hc; cases hc
    · rintro ⟨-, h32, -⟩; exact absurd h32 h
  · next h =>
    split
    · next hz =>
      constructor
      · intro hc; cases hc
      · rintro ⟨-, -, hnz⟩; exact absurd hz hnz
    · next hz =>
      constructor
      · intro hc
        refine ⟨(Except.ok.inj hc).symm, ?_, hz⟩
        omega
      · rintro ⟨rfl, -, -⟩; rfl

/-- Counterexample to claim C7: with `/usr` stored, the query `/usr` itself is
contained (Rust `Path::starts_with` accepts equality), yet no stored path is a
strict prefix of it. -/
theorem c7_pathset_equal_path_cex :
    pathset_contains (pathset_add [] [PComp.rootDir, PComp.normal "usr"])
      [PComp.rootDir, PComp.normal "usr"] = true ∧
    ∀ f ∈ pathset_add [] [PComp.rootDir, PComp.normal "usr"],
      ¬(f <+: [PComp.rootDir, PComp.normal "usr"] ∧
        f ≠ [PComp.rootDir, PComp.normal "usr"]) := by
  refine ⟨rfl, ?_⟩
  intro f hf
  simp only [pathset_add, List.not_mem_nil, if_false, List.nil_append,
    List.mem_singleton] at hf
  rintro ⟨-, hne⟩
  exact hne hf

/-- Claim C7 as amended: `PathSet::contains(q)` is true if and only if some
stored path is a component-wise prefix of `q`, equality included (not a
strict prefix). -/
theorem c7_pathset_contains_iff (members : List RPath) (q : RPath) :
    pathset_contains members q = true ↔ ∃ f ∈ members, f <+: q := by
  simp [pathset_contains, List.any_eq_true, List.isPrefixOf_iff_prefix]

/-- Claim C8: for every absolute workload path `p` (well-formed: no root
component after the head) and every rootfs path `r`, the
`to_rootfs`/`from_rootfs` round trip is the identity: joining strips the
suffix's leading slash, and `from_rootfs` strips the rootfs back and re-roots
at `/`. -/
theorem c8_to_rootfs_from_rootfs_roundtrip (p r : RPath) (habs : isAbsolute p = true)
    (hwf : (p.drop 1).all (fun c => decide (c ≠ PComp.rootDir)) = true) :
    from_rootfs r (to_rootfs p r) = some p := by
  cases p with
  | nil => simp [isAbsolute] at habs
  | cons c t =>
    have hc : c = PComp.rootDir := by
      simpa [isAbsolute] using habs
    subst hc
    simp only [List.drop_succ_cons, List.drop_zero, List.all_eq_true,
      decide_eq_true_eq] at hwf
    have ht : isAbsolute t = false := by
      cases t with
      | nil => rfl
      | cons d u =>
        have : d ≠ PComp.rootDir := hwf d (List.mem_cons_self d u)
        simp [isAbsolute, this]
    have habs' : isAbsolute (PComp.rootDir :: t) = true := rfl
    have h1 : to_rootfs (PComp.rootDir :: t) r = r ++ t := by
      simp [to_rootfs, scopedJoin, pathJoin, habs', ht]
    have h2 : pathStrip (r ++ t) r = some t := by
      rw [pathStrip, if_pos (List.prefix_append r t)]
      simp [List.drop_left]
    simp [from_rootfs, h1, h2, pathJoin, ht]

/-- Witness for C8 at `p = /usr`, `r = /host`. -/
theorem c8_to_rootfs_from_rootfs_roundtrip_witness :
    from_rootfs [PComp.rootDir, PComp.normal "host"]
      (to_rootfs [PComp.rootDir, PComp.normal "usr"] [PComp.rootDir, PComp.normal "host"]) =
      some [PComp.rootDir, PComp.normal "usr"] :=
  c8_to_rootfs_from_rootfs_roundtrip [PComp.rootDir, PComp.normal "usr"]
    [PComp.rootDir, PComp.normal "host"] rfl rfl

/-- Claim C4: a drained event whose cgroup resolves to container id C is
delivered to C's container workload when the workload map holds C, and
dropped when it does not; it is never delivered to the host workload. -/
theorem c4_container_event_never_to_host (contMapKeys workloadIds : List (List Char))
    (cgroupName : Option (List Char)) (C : List Char)
    (h : id_from_cgroup contMapKeys (cgroupName.getD []) = some C) :
    (C ∈ workloadIds →
      track_dispatch contMapKeys workloadIds cgroupName = Delivery.toContainer C) ∧
    (C ∉ workloadIds →
      track_dispatch contMapKeys workloadIds cgroupName = Delivery.droppedMissingWorkload) ∧
    track_dispatch contMapKeys workloadIds cgroupName ≠ Delivery.toHost := by
  simp only [track_dispatch, h]
  by_cases hm : C ∈ workloadIds
  · have hc : workloadIds.contains C = true := List.elem_iff.mpr hm
    simp [hc, hm]
  · have hc : workloadIds.contains C = false := by
      simpa using fun hx => hm (List.elem_iff.mp hx)
    simp [hc, hm]

/-- Witness for C4 with a tracked 64-hex id that is present in the workload
map: the event is delivered to that container. -/
theorem c4_container_event_never_to_host_witness :
    track_dispatch [List.replicate 64 'a'] [List.replicate 64 'a']
      (some (List.replicate 64 'a')) = Delivery.toContainer (List.replicate 64 'a') :=
  (c4_container_event_never_to_host [List.replicate 64 'a'] [List.replicate 64 'a']
      (some (List.replicate 64 'a')) (List.replicate 64 'a') (by decide)).1 (by decide)

/-- Claim C1, evaluated at the failing input: `HostWorkload::new` constructs
the host workload with `Registry::new()`, so the registry the live agent
consults is EMPTY — the SBOM loaded at startup is never registered into it
(main.rs keeps only `load_sbom(..).id()`; `Registry::from_sbom` has no caller
in this binary). Hence a first open of any resolved path — in particular
`/usr/bin/curl` with an SBOM mapping it to `pkg:curl` — appends the empty-id
sentinel record `{id := "", filenames := [path]}` and flushes it, never the
claimed `{id := "pkg:curl", filenames := ["/usr/bin/curl"]}`. -/
theorem c1_host_registry_empty_at_startup (hostId p : String) :
    (HostWorkload.new hostId).pkgs = [] ∧
    ((HostWorkload.new hostId).file_opened p).in_use_batch =
      [{ id := "", filenames := [p] }] ∧
    (((HostWorkload.new hostId).file_opened p).flush_in_use).1 =
      (hostId, [{ id := "", filenames := [p] }]) ∧
    ((HostWorkload.new hostId).file_opened "/usr/bin/curl").in_use_batch ≠
      [{ id := "pkg:curl", filenames := ["/usr/bin/curl"] }] := by
  have hbatch : ∀ q : String,
      ((HostWorkload.new hostId).file_opened q).in_use_batch =
        [{ id := "", filenames := [q] }] := by
    intro q
    simp [HostWorkload.new, HostWorkload.file_opened, lruPut, REPORTED_LRU_SIZE,
      getPackages, getPackagesStep, hmGet, hmInsert]
  refine ⟨rfl, hbatch p, ?_, ?_⟩
  · simp [HostWorkload.flush_in_use, hbatch p, HostWorkload.new,
      HostWorkload.file_opened, lruPut, REPORTED_LRU_SIZE, getPackages,
      getPackagesStep, hmGet, hmInsert]
  · rw [hbatch "/usr/bin/curl"]
    simp

/-- A path already in the host's reported LRU: the batch is unchanged and the
path stays in the LRU (promoted to the front). -/
theorem host_file_opened_of_mem (s : HostWorkload) (p : String) (h : p ∈ s.reported) :
    (s.file_opened p).in_use_batch = s.in_use_batch ∧
    (s.file_opened p).reported = p :: s.reported.erase p := by
  constructor <;> simp [HostWorkload.file_opened, lruPut, h]

/-- A path absent from the host's reported LRU: the registry lookup result is
appended (an empty result leaves the batch as-is, which the `++ []` absorbs)
and the path is inserted at the front of the LRU. -/
theorem host_file_opened_of_not_mem (s : HostWorkload) (p : String) (h : p ∉ s.reported) :
    (s.file_opened p).in_use_batch = s.in_use_batch ++ getPackages s.pkgs [p] ∧
    (s.file_opened p).reported =
      p :: (if s.reported.length = REPORTED_LRU_SIZE then s.reported.dropLast
            else s.reported) := by
  by_cases he : (getPackages s.pkgs [p]).isEmpty
  · rw [List.isEmpty_iff] at he
    constructor <;> simp [HostWorkload.file_opened, lruPut, h, he]
  · constructor <;> simp [HostWorkload.file_opened, lruPut, h, he]

/-- Container analogue of `host_file_opened_of_mem`. -/
theorem container_file_opened_of_mem (s : ContainerWorkload) (p : String)
    (h : p ∈ s.reported) :
    (s.file_opened p).in_use_batch = s.in_use_batch ∧
    (s.file_opened p).reported = p :: s.reported.erase p := by
  constructor <;> simp [ContainerWorkload.file_opened, lruPut, h]

/-- Container analogue of `host_file_opened_of_not_mem`: a single empty-id
`PkgRef` for the path is pushed. -/
theorem container_file_opened_of_not_mem (s : ContainerWorkload) (p : String)
    (h : p ∉ s.reported) :
    (s.file_opened p).in_use_batch = s.in_use_batch ++ [{ id := "", filenames := [p] }] ∧
    (s.file_opened p).reported =
      p :: (if s.reported.length = REPORTED_LRU_SIZE then s.reported.dropLast
            else s.reported) := by
  constructor <;> simp [ContainerWorkload.file_opened, lruPut, h]

/-- Claim C5: for both workload kinds, `file_opened` appends to the pending
batch only when the canonical path was absent from the 256-entry reported LRU
at that call, and inserts the path into the LRU at the same call; hence an
immediately repeated open of the same path appends nothing. -/
theorem c5_reported_lru_dedups (hs : HostWorkload) (cs : ContainerWorkload) (p : String) :
    (p ∈ hs.reported → (hs.file_opened p).in_use_batch = hs.in_use_batch) ∧
    (p ∉ hs.reported →
      (hs.file_opened p).in_use_batch = hs.in_use_batch ++ getPackages hs.pkgs [p]) ∧
    p ∈ (hs.file_opened p).reported ∧
    ((hs.file_opened p).file_opened p).in_use_batch = (hs.file_opened p).in_use_batch ∧
    (p ∈ cs.reported → (cs.file_opened p).in_use_batch = cs.in_use_batch) ∧
    (p ∉ cs.reported →
      (cs.file_opened p).in_use_batch = cs.in_use_batch ++ [{ id := "", filenames := [p] }]) ∧
    p ∈ (cs.file_opened p).reported ∧
    ((cs.file_opened p).file_opened p).in_use_batch = (cs.file_opened p).in_use_batch := by
  have hmemH : p ∈ (hs.file_opened p).reported := by
    by_cases h : p ∈ hs.reported
    · rw [(host_file_opened_of_mem hs p h).2]; exact List.mem_cons_self _ _
    · rw [(host_file_opened_of_not_mem hs p h).2]; exact List.mem_cons_self _ _
  have hmemC : p ∈ (cs.file_opened p).reported := by
    by_cases h : p ∈ cs.reported
    · rw [(container_file_opened_of_mem cs p h).2]; exact List.mem_cons_self _ _
    · rw [(container_file_opened_of_not_mem cs p h).2]; exact List.mem_cons_self _ _
  refine ⟨fun h => (host_file_opened_of_mem hs p h).1,
    fun h => (host_file_opened_of_not_mem hs p h).1,
    hmemH,
    (host_file_opened_of_mem _ p hmemH).1,
    fun h => (container_file_opened_of_mem cs p h).1,
    fun h => (container_file_opened_of_not_mem cs p h).1,
    hmemC,
    (container_file_opened_of_mem _ p hmemC).1⟩

/-- `resPush` leaves bindings of other keys alone. -/
theorem hmGet_resPush_ne (k f j : String) (h : j ≠ k) :
    ∀ m : List (String × PkgRef), hmGet (resPush m k f) j = hmGet m j := by
  intro m
  induction m with
  | nil => rfl
  | cons e rest ih =>
    obtain ⟨k', p⟩ := e
    by_cases hk : k' = k
    · subst hk
      have hj : ¬(k' = j) := fun hh => h hh.symm
      simp [resPush, hmGet, hj]
    · by_cases hj : k' = j
      · subst hj
        simp [resPush, hmGet, hk]
      · simp [resPush, hmGet, hk, hj, ih]

/-- `resPush` appends `f` to the binding of its key. -/
theorem hmGet_resPush_self (k f : String) :
    ∀ m : List (String × PkgRef),
      hmGet (resPush m k f) k =
        (hmGet m k).map (fun p => { p with filenames := p.filenames ++ [f] }) := by
  intro m
  induction m with
  | nil => rfl
  | cons e rest ih =>
    obtain ⟨k', p⟩ := e
    by_cases hk : k' = k
    · simp [resPush, hmGet, hk]
    · simp [resPush, hmGet, hk, ih]

/-- `hmInsert` binds its key to its value. -/
theorem hmGet_hmInsert_self {α β : Type} [DecidableEq α] (m : List (α × β)) (k : α) (v : β) :
    hmGet (hmInsert m k v) k = some v := by
  induction m with
  | nil => simp [hmInsert, hmGet]
  | cons e rest ih =>
    obtain ⟨k', v'⟩ := e
    by_cases hk : k' = k
    · simp [hmInsert, hmGet, hk]
    · simp [hmInsert, hmGet, hk, ih]

/-- `hmInsert` leaves bindings of other keys alone. -/
theorem hmGet_hmInsert_ne {α β : Type} [DecidableEq α] (m : List (α × β)) (k j : α) (v : β)
    (h : j ≠ k) : hmGet (hmInsert m k v) j = hmGet m j := by
  have hkj : ¬(k = j) := fun hh => h hh.symm
  induction m with
  | nil => simp [hmInsert, hmGet, hkj]
  | cons e rest ih =>
    obtain ⟨k', v'⟩ := e
    by_cases hk : k' = k
    · subst hk
      simp [hmInsert, hmGet, hkj]
    · by_cases hj : k' = j
      · subst hj
        simp [hmInsert, hmGet, hk]
      · simp [hmInsert, hmGet, hk, hj, ih]

/-- `resPush` keeps the key list. -/
theorem map_fst_resPush (k f : String) :
    ∀ m : List (String × PkgRef), (resPush m k f).map Prod.fst = m.map Prod.fst := by
  intro m
  induction m with
  | nil => rfl
  | cons e rest ih =>
    obtain ⟨k', p⟩ := e
    by_cases hk : k' = k
    · simp [resPush, hk]
    · simp [resPush, hk, ih]

/-- A key absent from the key list has no binding. -/
theorem hmGet_none_of_not_keys {α β : Type} [DecidableEq α] (j : α) :
    ∀ m : List (α × β), j ∉ m.map Prod.fst → hmGet m j = none := by
  intro m
  induction m with
  | nil => intro; rfl
  | cons e rest ih =>
    intro h
    obtain ⟨k', v'⟩ := e
    simp only [List.map_cons, List.mem_cons, not_or] at h
    have : ¬(k' = j) := fun hh => h.1 hh.symm
    simp [hmGet, this, ih h.2]

/-- A key with a binding is in the key list. -/
theorem mem_keys_of_hmGet_some {α β : Type} [DecidableEq α] (j : α) (v : β) :
    ∀ m : List (α × β), hmGet m j = some v → j ∈ m.map Prod.fst := by
  intro m
  induction m with
  | nil => intro h; cases h
  | cons e rest ih =>
    intro h
    obtain ⟨k', v'⟩ := e
    by_cases hk : k' = j
    · simp [hk]
    · simp only [hmGet, hk, if_false] at h
      simp [ih h]

/-- Every entry of `resPush m k f` has the key and value-id of an entry of `m`. -/
theorem resPush_entry (k f : String) :
    ∀ m : List (String × PkgRef), ∀ e ∈ resPush m k f,
      ∃ e' ∈ m, e.1 = e'.1 ∧ e.2.id = e'.2.id := by
  intro m
  induction m with
  | nil => intro e he; cases he
  | cons e₀ rest ih =>
    obtain ⟨k', p⟩ := e₀
    intro e he
    by_cases hk : k' = k
    · simp only [resPush, hk, if_true, List.mem_cons] at he
      rcases he with he | he
      · exact ⟨(k', p), List.mem_cons_self _ _, by rw [he, hk], by rw [he]⟩
      · exact ⟨e, List.mem_cons_of_mem _ he, rfl, rfl⟩
    · simp only [resPush, hk, if_false, List.mem_cons] at he
      rcases he with he | he
      · exact ⟨(k', p), List.mem_cons_self _ _, by rw [he], by rw [he]⟩
      · obtain ⟨e', he', h1, h2⟩ := ih e he
        exact ⟨e', List.mem_cons_of_mem _ he', h1, h2⟩

/-- Every entry of `hmInsert m k v` is the new binding or an entry of `m`. -/
theorem hmInsert_entry {α β : Type} [DecidableEq α] (k : α) (v : β) :
    ∀ m : List (α × β), ∀ e ∈ hmInsert m k v, e = (k, v) ∨ e ∈ m := by
  intro m
  induction m with
  | nil => intro e he; simp only [hmInsert, List.mem_singleton] at he; exact Or.inl he
  | cons e₀ rest ih =>
    obtain ⟨k', v'⟩ := e₀
    intro e he
    by_cases hk : k' = k
    · simp only [hmInsert, hk, if_true, List.mem_cons] at he
      rcases he with he | he
      · exact Or.inl he
      · exact Or.inr (List.mem_cons_of_mem _ he)
    · simp only [hmInsert, hk, if_false, List.mem_cons] at he
      rcases he with he | he
      · exact Or.inr (by simp [he])
      · rcases ih e he with h | h
        · exact Or.inl h
        · exact Or.inr (List.mem_cons_of_mem _ h)

/-- `hmInsert` keeps the key list when the key is bound, else appends it. -/
theorem map_fst_hmInsert {α β : Type} [DecidableEq α] (k : α) (v : β) :
    ∀ m : List (α × β),
      (hmInsert m k v).map Prod.fst =
        if (hmGet m k).isSome then m.map Prod.fst else m.map Prod.fst ++ [k] := by
  intro m
  induction m with
  | nil => simp [hmInsert, hmGet]
  | cons e rest ih =>
    obtain ⟨k', v'⟩ := e
    by_cases hk : k' = k
    · simp [hmInsert, hmGet, hk]
    · simp only [hmInsert, hk, if_false, List.map_cons, hmGet, ih]
      by_cases hs : (hmGet rest k).isSome
      · simp [hs]
      · simp [hs]

/-- A key in the key list has a binding. -/
theorem hmGet_isSome_of_mem_keys {α β : Type} [DecidableEq α] (j : α) :
    ∀ m : List (α × β), j ∈ m.map Prod.fst → (hmGet m j).isSome = true := by
  intro m
  induction m with
  | nil => intro h; cases h
  | cons e rest ih =>
    intro h
    obtain ⟨k', v'⟩ := e
    by_cases hk : k' = j
    · simp [hmGet, hk]
    · simp only [List.map_cons, List.mem_cons] at h
      rcases h with h | h
      · exact absurd h.symm hk
      · simp [hmGet, hk, ih h]

/-- `resPush` preserves the result-map well-formedness. -/
theorem KeysOk_resPush (k f : String) (m : List (String × PkgRef)) (h : KeysOk m) :
    KeysOk (resPush m k f) := by
  obtain ⟨h1, h2⟩ := h
  refine ⟨?_, by rw [map_fst_resPush]; exact h2⟩
  intro e he
  obtain ⟨e', he', hfst, hid⟩ := resPush_entry k f m e he
  rw [hid, hfst]
  exact h1 e' he'

/-- `hmInsert` of a value whose id is its key preserves well-formedness. -/
theorem KeysOk_hmInsert (k : String) (v : PkgRef) (hv : v.id = k)
    (m : List (String × PkgRef)) (h : KeysOk m) : KeysOk (hmInsert m k v) := by
  obtain ⟨h1, h2⟩ := h
  constructor
  · intro e he
    rcases hmInsert_entry k v m e he with he' | he'
    · rw [he']; exact hv
    · exact h1 e he'
  · rw [map_fst_hmInsert]
    by_cases hs : (hmGet m k).isSome
    · simp [hs, h2]
    · have hnot : k ∉ m.map Prod.fst := fun hmem =>
        hs (hmGet_isSome_of_mem_keys k m hmem)
      simp [hs, List.nodup_append, h2, hnot]

/-- `MonoAt` is reflexive. -/
theorem monoAt_refl (id : String) (m : List (String × PkgRef)) : MonoAt id m m :=
  fun p h => ⟨p, h, List.Subset.refl _⟩

/-- `MonoAt` is transitive. -/
theorem monoAt_trans (id : String) (m₁ m₂ m₃ : List (String × PkgRef))
    (h12 : MonoAt id m₁ m₂) (h23 : MonoAt id m₂ m₃) : MonoAt id m₁ m₃ := by
  intro p hp
  obtain ⟨q, hq, hs1⟩ := h12 p hp
  obtain ⟨r, hr, hs2⟩ := h23 q hq
  exact ⟨r, hr, List.Subset.trans hs1 hs2⟩

/-- `resUpd` for another id leaves the binding of `id` alone. -/
theorem hmGet_resUpd_ne (id f j : String) (m : List (String × PkgRef)) (h : id ≠ j) :
    hmGet (resUpd f m j) id = hmGet m id := by
  cases hg : hmGet m j with
  | some q => simp only [resUpd, hg]; exact hmGet_resPush_ne j f id h m
  | none => simp only [resUpd, hg]; exact hmGet_hmInsert_ne m j id _ h

/-- `resUpd` never shrinks the binding of any id. -/
theorem monoAt_resUpd (id f j : String) (m : List (String × PkgRef)) :
    MonoAt id m (resUpd f m j) := by
  intro p hp
  by_cases hj : id = j
  · subst hj
    simp only [resUpd, hp]
    rw [hmGet_resPush_self, hp]
    exact ⟨_, rfl, by simp⟩
  · rw [hmGet_resUpd_ne id f j m hj]
    exact ⟨p, hp, List.Subset.refl _⟩

/-- Folding `resUpd` over a list of ids never shrinks the binding of any id. -/
theorem monoAt_foldl_resUpd (id f : String) :
    ∀ (ids : List String) (m : List (String × PkgRef)),
      MonoAt id m (ids.foldl (resUpd f) m) := by
  intro ids
  induction ids with
  | nil => intro m; exact monoAt_refl id m
  | cons j ids ih =>
    intro m
    rw [List.foldl_cons]
    exact monoAt_trans id m (resUpd f m j) _ (monoAt_resUpd id f j m) (ih (resUpd f m j))

/-- `resUpd` for id itself leaves a binding containing the pushed file. -/
theorem resUpd_self_adds (id f : String) (m : List (String × PkgRef)) :
    ∃ p', hmGet (resUpd f m id) id = some p' ∧ f ∈ p'.filenames := by
  cases hg : hmGet m id with
  | some p =>
    refine ⟨{ p with filenames := p.filenames ++ [f] }, ?_, by simp⟩
    simp only [resUpd, hg]
    rw [hmGet_resPush_self, hg]
    rfl
  | none =>
    refine ⟨{ id := id, filenames := [f] }, ?_, by simp⟩
    simp only [resUpd, hg]
    exact hmGet_hmInsert_self m id _

/-- After the per-id fold, an id among the file's ids is bound and holds the
file. -/
theorem foldl_resUpd_adds (id f : String) :
    ∀ (ids : List String) (m : List (String × PkgRef)), id ∈ ids →
      ∃ p', hmGet (ids.foldl (resUpd f) m) id = some p' ∧ f ∈ p'.filenames := by
  intro ids
  induction ids with
  | nil => intro m h; cases h
  | cons j ids ih =>
    intro m h
    rw [List.foldl_cons]
    by_cases hj : id ∈ ids
    · exact ih _ hj
    · have hid : j = id := by
        rcases List.mem_cons.mp h with h' | h'
        · exact h'.symm
        · exact absurd h' hj
      subst hid
      obtain ⟨p₀, hp₀, hf⟩ := resUpd_self_adds j f m
      obtain ⟨p', hp', hsub⟩ := monoAt_foldl_resUpd j f ids (resUpd f m j) p₀ hp₀
      exact ⟨p', hp', hsub hf⟩

/-- After the per-id fold, an id not among the file's ids is untouched. -/
theorem foldl_resUpd_not_mem (id f : String) :
    ∀ (ids : List String) (m : List (String × PkgRef)), id ∉ ids →
      hmGet (ids.foldl (resUpd f) m) id = hmGet m id := by
  intro ids
  induction ids with
  | nil => intro m _; rfl
  | cons j ids ih =>
    intro m h
    have h1 : id ≠ j := fun hh => h (hh ▸ List.mem_cons_self j ids)
    have h2 : id ∉ ids := fun hh => h (List.mem_cons_of_mem j hh)
    rw [List.foldl_cons, ih _ h2, hmGet_resUpd_ne id f j m h1]

/-- Presence of the binding of `id` after the per-id fold. -/
theorem foldl_resUpd_isSome (id f : String) (ids : List String)
    (m : List (String × PkgRef)) :
    (hmGet (ids.foldl (resUpd f) m) id).isSome =
      ((hmGet m id).isSome || ids.contains id) := by
  by_cases h : id ∈ ids
  · obtain ⟨p', hp', -⟩ := foldl_resUpd_adds id f ids m h
    rw [hp']
    simp only [Option.isSome_some]
    rw [show ids.contains id = true from List.elem_eq_true_of_mem h]
    simp
  · rw [foldl_resUpd_not_mem id f ids m h]
    have hc : ids.contains id = false := by
      by_contra hx
      exact h (List.elem_iff.mp (by simpa using hx))
    rw [hc]
    simp

/-- `resUpd` preserves the result-map well-formedness. -/
theorem KeysOk_resUpd (f j : String) (m : List (String × PkgRef)) (h : KeysOk m) :
    KeysOk (resUpd f m j) := by
  cases hg : hmGet m j with
  | some q => simp only [resUpd, hg]; exact KeysOk_resPush j f m h
  | none => simp only [resUpd, hg]; exact KeysOk_hmInsert j _ rfl m h

/-- The per-id fold preserves the result-map well-formedness. -/
theorem KeysOk_foldl_resUpd (f : String) :
    ∀ (ids : List String) (m : List (String × PkgRef)), KeysOk m →
      KeysOk (ids.foldl (resUpd f) m) := by
  intro ids
  induction ids with
  | nil => intro m h; exact h
  | cons j ids ih =>
    intro m h
    rw [List.foldl_cons]
    exact ih _ (KeysOk_resUpd f j m h)

/-- `matchesAny` over one more file. -/
theorem matchesAny_append (inner : Registry) (id : String) (pr : List String) (f : String) :
    matchesAny inner id (pr ++ [f]) = (matchesAny inner id pr || registeredTo inner f id) := by
  simp [matchesAny, List.any_append]

/-- One `get_packages` file step preserves the result-map well-formedness. -/
theorem KeysOk_step (inner : Registry) (f : String) (m : List (String × PkgRef))
    (h : KeysOk m) : KeysOk (getPackagesStep inner m f) := by
  cases hg : hmGet inner f with
  | some ids => simp only [getPackagesStep, hg]; exact KeysOk_foldl_resUpd f ids m h
  | none => simp only [getPackagesStep, hg]; exact KeysOk_hmInsert "" _ rfl m h

/-- One `get_packages` file step preserves the per-id tracking invariant, for
a non-empty package id (the empty id doubles as the unmatched-file sentinel
and is overwritten by it). -/
theorem trackOk_step (inner : Registry) (id : String) (hid : id ≠ "") (f : String)
    (pr : List String) (m : List (String × PkgRef)) (h : TrackOk inner id pr m) :
    TrackOk inner id (pr ++ [f]) (getPackagesStep inner m f) := by
  obtain ⟨hsome, hcont⟩ := h
  cases hg : hmGet inner f with
  | none =>
    have hreg : registeredTo inner f id = false := by simp [registeredTo, hg]
    constructor
    · simp only [getPackagesStep, hg]
      rw [hmGet_hmInsert_ne m "" id _ hid, matchesAny_append, hreg, hsome]
      simp
    · intro p hp f' hf' hregf
      simp only [getPackagesStep, hg] at hp
      rw [hmGet_hmInsert_ne m "" id _ hid] at hp
      rcases List.mem_append.mp hf' with h' | h'
      · exact hcont p hp f' h' hregf
      · have : f' = f := by simpa using h'
        subst this
        rw [hregf] at hreg
        cases hreg
  | some ids =>
    have hreg : registeredTo inner f id = ids.contains id := by simp [registeredTo, hg]
    constructor
    · simp only [getPackagesStep, hg]
      rw [foldl_resUpd_isSome, matchesAny_append, hreg, hsome]
    · intro p hp f' hf' hregf
      simp only [getPackagesStep, hg] at hp
      rcases List.mem_append.mp hf' with h' | h'
      · cases ho : hmGet m id with
        | some q =>
          have hfq : f' ∈ q.filenames := hcont q ho f' h' hregf
          obtain ⟨p', hp', hsub⟩ := monoAt_foldl_resUpd id f ids m q ho
          rw [hp] at hp'
          cases hp'
          exact hsub hfq
        | none =>
          exfalso
          rw [ho] at hsome
          have hm : matchesAny inner id pr = true :=
            List.any_eq_true.mpr ⟨f', h', hregf⟩
          rw [hm] at hsome
          cases hsome
      · have : f' = f := by simpa using h'
        subst this
        have hin : id ∈ ids := by
          rw [hreg] at hregf
          exact List.elem_iff.mp (by simpa using hregf)
        obtain ⟨p'', hp'', hf⟩ := foldl_resUpd_adds id f' ids m hin
        rw [hp] at hp''
        cases hp''
        exact hf

/-- Counting values by id in a well-formed result map: one when the id is
bound, none otherwise. -/
theorem countP_values (id : String) :
    ∀ m : List (String × PkgRef), KeysOk m →
      (m.map Prod.snd).countP (fun p => p.id == id) =
        if (hmGet m id).isSome then 1 else 0 := by
  intro m
  induction m with
  | nil => intro _; simp [hmGet]
  | cons e rest ih =>
    rintro ⟨h1, h2⟩
    obtain ⟨k, p⟩ := e
    have hpid : p.id = k := h1 (k, p) (List.mem_cons_self _ _)
    have h2' : (rest.map Prod.fst).Nodup := (List.nodup_cons.mp h2).2
    have hknot : k ∉ rest.map Prod.fst := (List.nodup_cons.mp h2).1
    have ihr := ih ⟨fun e he => h1 e (List.mem_cons_of_mem _ he), h2'⟩
    by_cases hk : k = id
    · subst hk
      have hnone : hmGet rest k = none := hmGet_none_of_not_keys k rest hknot
      rw [hnone] at ihr
      simp only [List.map_cons, List.countP_cons, ihr, hpid, hmGet]
      simp
    · simp only [List.map_cons, List.countP_cons, ihr, hpid, hmGet, hk]
      simp [hk]

/-- In a well-formed result map, an entry is recovered by looking up its key. -/
theorem hmGet_of_mem_keysOk :
    ∀ m : List (String × PkgRef), (m.map Prod.fst).Nodup →
      ∀ e ∈ m, hmGet m e.1 = some e.2 := by
  intro m
  induction m with
  | nil => intro _ e he; cases he
  | cons e' rest ih =>
    intro h2 e he
    have h2' : (rest.map Prod.fst).Nodup := (List.nodup_cons.mp h2).2
    have hknot : e'.1 ∉ rest.map Prod.fst := (List.nodup_cons.mp h2).1
    rcases List.mem_cons.mp he with h | h
    · subst h
      obtain ⟨k, v⟩ := e
      simp [hmGet]
    · have hne : ¬(e'.1 = e.1) := by
        intro hh
        exact hknot (hh ▸ List.mem_map_of_mem Prod.fst h)
      obtain ⟨k', v'⟩ := e'
      simp only [hmGet, hne, if_false]
      exact ih h2' e h

/-- Counterexample to claim C2: with the registry registering file "a" to the
package id "" and the input ["a", "b"], the unmatched file "b" overwrites the
empty-id binding (`result.insert(String::new(), …)`), so the returned
`PkgRef` for the matching package id "" has lost the registered path "a". -/
theorem c2_get_packages_lost_path_cex :
    registeredTo [("a", [""])] "a" "" = true ∧
    getPackages [("a", [""])] ["a", "b"] = [{ id := "", filenames := ["b"] }] ∧
    ∀ p ∈ getPackages [("a", [""])] ["a", "b"], "a" ∉ p.filenames := by
  refine ⟨rfl, rfl, ?_⟩
  decide

/-- Claim C2 as amended: for every NON-EMPTY package id (the empty id doubles
as the unmatched-file sentinel and can be overwritten), `get_packages` returns
exactly one `PkgRef` per id matching at least one input filename, and that
`PkgRef`'s filenames contain every input filename registered to the id. -/
theorem c2_get_packages_aggregation (inner : Registry) (fs : List String) (id : String)
    (hid : id ≠ "") :
    ((getPackages inner fs).countP (fun p => p.id == id) =
      if matchesAny inner id fs then 1 else 0) ∧
    (∀ p ∈ getPackages inner fs, p.id = id →
      ∀ f ∈ fs, registeredTo inner f id = true → f ∈ p.filenames) := by
  have main : ∀ (l : List String) (pr : List String) (m : List (String × PkgRef)),
      KeysOk m → TrackOk inner id pr m →
      KeysOk (l.foldl (getPackagesStep inner) m) ∧
      TrackOk inner id (pr ++ l) (l.foldl (getPackagesStep inner) m) := by
    intro l
    induction l with
    | nil =>
      intro pr m h1 h2
      simpa using ⟨h1, h2⟩
    | cons f l ih =>
      intro pr m h1 h2
      rw [List.foldl_cons]
      have h1' := KeysOk_step inner f m h1
      have h2' := trackOk_step inner id hid f pr m h2
      have hres := ih (pr ++ [f]) _ h1' h2'
      rwa [List.append_assoc, List.singleton_append] at hres
  have hnil1 : KeysOk ([] : List (String × PkgRef)) := ⟨by simp, by simp⟩
  have hnil2 : TrackOk inner id [] [] := by
    constructor
    · simp [hmGet, matchesAny]
    · intro p hp
      cases hp
  obtain ⟨hk, ht⟩ := main fs [] [] hnil1 hnil2
  rw [List.nil_append] at ht
  constructor
  · simp only [getPackages]
    rw [countP_values id _ hk, ht.1]
  · intro p hp hpid f hf hreg
    simp only [getPackages] at hp
    obtain ⟨e, he, hes⟩ := List.mem_map.mp hp
    have hkey : e.1 = id := by rw [← hk.1 e he, hes, hpid]
    have hlook : hmGet (fs.foldl (getPackagesStep inner) []) id = some p := by
      have hg := hmGet_of_mem_keysOk _ hk.2 e he
      rw [hkey, hes] at hg
      exact hg
    exact ht.2 p hlook f hf hreg

/-- Witness for C2 (amended) at a concrete registry and input. -/
theorem c2_get_packages_aggregation_witness :
    ((getPackages [("/usr/bin/curl", ["pkg:curl"])] ["/usr/bin/curl"]).countP
        (fun p => p.id == "pkg:curl") =
      if matchesAny [("/usr/bin/curl", ["pkg:curl"])] "pkg:curl" ["/usr/bin/curl"]
      then 1 else 0) ∧
    (∀ p ∈ getPackages [("/usr/bin/curl", ["pkg:curl"])] ["/usr/bin/curl"],
      p.id = "pkg:curl" →
      ∀ f ∈ ["/usr/bin/curl"],
        registeredTo [("/usr/bin/curl", ["pkg:curl"])] f "pkg:curl" = true →
        f ∈ p.filenames) :=
  c2_get_packages_aggregation [("/usr/bin/curl", ["pkg:curl"])] ["/usr/bin/curl"]
    "pkg:curl" (by decide)

/-- A successful greedy search yields a position with a 64-hex-digit run. -/
theorem tryK_hexRun (cs : List Char) (s : Nat) :
    ∀ k k', tryK cs s k = some k' → hexRun64At cs (s + k') = true := by
  intro k
  induction k with
  | zero =>
    intro k' h
    simp only [tryK] at h
    split at h
    · next hc =>
      cases h
      rw [Bool.and_eq_true] at hc
      simpa using hc.2
    · cases h
  | succ k ih =>
    intro k' h
    simp only [tryK] at h
    split at h
    · next hc =>
      cases h
      rw [Bool.and_eq_true] at hc
      exact hc.2
    · exact ih k' h

/-- A successful capture at a start position is a 64-hex window of the text. -/
theorem captureAt_spec (cs : List Char) (s : Nat) (r : List Char)
    (h : captureAt cs s = some r) :
    ∃ i, hexRun64At cs i = true ∧ r = (cs.drop i).take 64 := by
  simp only [captureAt] at h
  split at h
  · obtain ⟨k, hk, hr⟩ := Option.map_eq_some'.mp h
    exact ⟨s + k, tryK_hexRun cs s _ k hk, hr.symm⟩
  · cases h

/-- A successful leftmost search yields a 64-hex window of the text. -/
theorem findCaptureFrom_spec (cs : List Char) :
    ∀ (fuel s : Nat) (r : List Char), findCaptureFrom cs s fuel = some r →
      ∃ i, hexRun64At cs i = true ∧ r = (cs.drop i).take 64 := by
  intro fuel
  induction fuel with
  | zero => intro s r h; cases h
  | succ fuel ih =>
    intro s r h
    simp only [findCaptureFrom] at h
    cases hc : captureAt cs s with
    | some r' =>
      rw [hc] at h
      cases h
      exact captureAt_spec cs s r hc
    | none =>
      rw [hc] at h
      exact ih (s + 1) r h

/-- A successful regex capture is 64 hex digits and an infix of the cgroup
name. -/
theorem capture64_spec (cs r : List Char) (h : capture64 cs = some r) :
    r.length = 64 ∧ r.all isXdigit = true ∧ r <:+: cs := by
  obtain ⟨i, hhex, hr⟩ := findCaptureFrom_spec cs (cs.length + 1) 0 r h
  simp only [hexRun64At, Bool.and_eq_true, decide_eq_true_eq] at hhex
  obtain ⟨hle', hall⟩ := hhex
  subst hr
  refine ⟨?_, hall, ?_⟩
  · rw [List.length_take, List.length_drop]
    omega
  · exact ⟨cs.take i, (cs.drop i).drop 64,
      by rw [List.append_assoc, List.take_append_drop, List.take_append_drop]⟩

/-- Without any 64-hex-digit run, the greedy search fails. -/
theorem tryK_none (cs : List Char) (s : Nat) (h : ∀ i, hexRun64At cs i = false) :
    ∀ k, tryK cs s k = none := by
  intro k
  induction k with
  | zero => simp [tryK, h s]
  | succ k ih => simp [tryK, h (s + (k + 1)), ih]

/-- Without any 64-hex-digit run, no start position captures. -/
theorem captureAt_none (cs : List Char) (s : Nat) (h : ∀ i, hexRun64At cs i = false) :
    captureAt cs s = none := by
  simp [captureAt, tryK_none cs s h]

/-- Without any 64-hex-digit run, the leftmost search fails. -/
theorem findCaptureFrom_none (cs : List Char) (h : ∀ i, hexRun64At cs i = false) :
    ∀ (fuel s : Nat), findCaptureFrom cs s fuel = none := by
  intro fuel
  induction fuel with
  | zero => intro s; rfl
  | succ fuel ih =>
    intro s
    simp [findCaptureFrom, captureAt_none cs s h, ih]

/-- Counterexample to claim C6: the cgroup name is 128 hex digits (64 'a's
then 64 'b's); the greedy `.*` makes the capture the LAST 64-hex window (the
'b's), so although the 64-hex substring of 'a's is a tracked key, the lookup
returns None. -/
theorem c6_id_from_cgroup_second_window_cex :
    id_from_cgroup [List.replicate 64 'a']
      (List.replicate 64 'a' ++ List.replicate 64 'b') = none ∧
    hexRun64At (List.replicate 64 'a' ++ List.replicate 64 'b') 0 = true ∧
    (List.replicate 64 'a' ++ List.replicate 64 'b').take 64 = List.replicate 64 'a' ∧
    List.replicate 64 'a' ∈ [List.replicate 64 'a'] := by
  set_option maxRecDepth 4000 in
  refine ⟨?_, ?_, ?_, ?_⟩ <;> decide

/-- Claim C6 as amended: `id_from_cgroup` returns `Some id` only for the
single greedy capture, which is then a 64-hex-digit substring of the cgroup
name present in the tracker's map; and with no 64-hex-digit run in the name at
all, it returns `None`. (The original iff fails: a name can contain a tracked
64-hex substring while the greedy capture is a different, untracked window.) -/
theorem c6_id_from_cgroup_spec (contMapKeys : List (List Char)) (cgroup : List Char) :
    (∀ id, id_from_cgroup contMapKeys cgroup = some id →
      id ∈ contMapKeys ∧ id.length = 64 ∧ id.all isXdigit = true ∧ id <:+: cgroup) ∧
    ((∀ i, hexRun64At cgroup i = false) → id_from_cgroup contMapKeys cgroup = none) := by
  constructor
  · intro i h
    simp only [id_from_cgroup] at h
    cases hc : capture64 cgroup with
    | none => rw [hc] at h; cases h
    | some r =>
      rw [hc] at h
      simp only [] at h
      by_cases hm : contMapKeys.contains r = true
      · rw [if_pos hm] at h
        cases h
        obtain ⟨hl, ha, hi⟩ := capture64_spec cgroup i hc
        exact ⟨List.elem_iff.mp (by simpa using hm), hl, ha, hi⟩
      · rw [if_neg hm] at h
        cases h
  · intro h
    have hnone : capture64 cgroup = none := findCaptureFrom_none cgroup h _ _
    simp [id_from_cgroup, hnone]
